import Mathlib

/-
  Verification of the Polymer `PropertyEffects` mixin
  (src/general/bower_components/polymer/lib/mixins/property-effects.d.ts).

  The repository ships only the TypeScript declaration file of the mixin:
  its doc comments describe the behaviour (effect ordering, the dirty-check
  and temporary-cache discipline, path get/set semantics, splice
  notification), while the executable implementation lives outside the
  repository.  The definitions below therefore embed the engine as
  described by the specification and by the declaration file's doc
  comments; each definition's doc comment records what it models.

  Paths are modelled in their normalized form, as lists of path parts
  (the public API accepts `Array<string|number>` path-part sequences and
  normalizes dotted strings into parts; array indices are numeric
  segments equivalent to string digits).
-/

namespace PolymerPropertyEffects

/-! ### Path utility (`../utils/path.js`: `isAncestor`, `translate`) -/

/-- Modelled from the spec: the path utility's `isAncestor base p` decides
whether `base` is a strict ancestor of `p`, i.e. `base` is a strict prefix
of the part sequence of `p` (`base = a.b` is an ancestor of `p = a.b.c`). -/
def isAncestor : List String → List String → Bool
  | [], [] => false
  | [], _ :: _ => true
  | _ :: _, [] => false
  | a :: as, b :: bs => a == b && isAncestor as bs

/-- Modelled from the spec: `translate from to p` rewrites a path `p` that
lies at or below `from` into the corresponding path at or below `to`. -/
def translate (from_ to_ p : List String) : List String :=
  to_ ++ p.drop from_.length

/-! ### Object graph and the `get`/`set` path accessors -/

/-- A JavaScript-style value reachable from an instance root: `undefined`
models `undefined`, `prim`/`str` primitive values, `obj` an object with
named properties, `arr` an array. -/
inductive Value where
  | undefined : Value
  | prim  : Int → Value
  | str   : String → Value
  | obj   : List (String × Value) → Value
  | arr   : List Value → Value

/-- Whether a value is `undefined` (the no-op guard used by `set`). -/
def Value.isUndefVal : Value → Bool
  | .undefined => true
  | _ => false

/-- Property lookup on an object's field list; a missing property reads as
`undefined`, as in JavaScript. -/
def lookupProp : List (String × Value) → String → Value
  | [], _ => .undefined
  | (k, v) :: rest, s => if k = s then v else lookupProp rest s

/-- Property update on an object's field list; assigning a property that
is not yet present adds it, as JavaScript assignment does. -/
def setProp : List (String × Value) → String → Value → List (String × Value)
  | [], s, v => [(s, v)]
  | (k, w) :: rest, s, v =>
    if k = s then (k, v) :: rest else (k, w) :: setProp rest s v

/-- Array element update: in range it replaces the element; past the end
it extends the array with `undefined` holes and then the element, as
JavaScript index assignment does. -/
def setIdx (items : List Value) (i : Nat) (v : Value) : List Value :=
  if i < items.length then items.set i v
  else items ++ List.replicate (i - items.length) .undefined ++ [v]

/-- Dereference one path part: object parts by property name, array parts
by decimal index (array indices are numeric segments); any other
dereference reads as `undefined`. -/
def getSeg (v : Value) (s : String) : Value :=
  match v with
  | .obj fields => lookupProp fields s
  | .arr items =>
    match s.toNat? with
    | some i => items.getD i .undefined
    | none => .undefined
  | _ => .undefined

/-- Write one path part into a container value: objects by property name,
arrays by decimal index; a write into a non-container is dropped. -/
def setSeg (v : Value) (s : String) (w : Value) : Value :=
  match v with
  | .obj fields => .obj (setProp fields s w)
  | .arr items =>
    match s.toNat? with
    | some i => .arr (setIdx items i w)
    | none => .arr items
  | other => other

/-- Modelled from the spec: the path utility's `get` dereferences the path
parts in order from the root; if any part is undefined the result is
`undefined` — the function is total, it never throws. -/
def get : List String → Value → Value
  | [], v => v
  | s :: rest, v => get rest (getSeg v s)

/-- Modelled from the spec: the path utility's `set` dereferences all
parts but the last and assigns the value to the last part; if any
intermediate dereference is undefined the call is a no-op (it never
throws).  The JavaScript original mutates in place; this functional model
returns the updated root. -/
def set : List String → Value → Value → Value
  | [], _, root => root
  | [s], v, root => setSeg root s v
  | s :: s2 :: rest, v, root =>
    let child := getSeg root s
    if child.isUndefVal then root
    else setSeg root s (set (s2 :: rest) v child)

/-- The last path part lands on a container that can hold it: an object
accepts any property name, an array accepts a numeric index.  All
intermediate dereferences must be defined along the way. -/
def canWrite : List String → Value → Bool
  | [], _ => false
  | [s], v =>
    match v with
    | .obj _ => true
    | .arr _ => (s.toNat?).isSome
    | _ => false
  | s :: s2 :: rest, v =>
    let c := getSeg v s
    !c.isUndefVal && canWrite (s2 :: rest) c

/-- The path has an undefined intermediate dereference. -/
def brokenAt : List String → Value → Bool
  | [], _ => false
  | [_], _ => false
  | s :: s2 :: rest, v =>
    let c := getSeg v s
    c.isUndefVal || brokenAt (s2 :: rest) c

/-! ### Pending-change accumulator and the dirty-check policy
(`_setPendingProperty`, declaration file lines 350-384) -/

/-- A value as seen by the dirty check: a primitive, or an object
reference.  Object references compare by identity (the reference id), as
JavaScript `===` does. -/
inductive DVal where
  | prim : Int → DVal
  | objRef : Nat → DVal
deriving DecidableEq

/-- Whether the value is an object reference (case 2 of the documented
dirty-check policy). -/
def DVal.isObj : DVal → Bool
  | .objRef _ => true
  | .prim _ => false

/-- Association-list lookup for the instance stores. -/
def lookupD : List (String × DVal) → String → Option DVal
  | [], _ => none
  | (k, v) :: rest, s => if k = s then some v else lookupD rest s

/-- Association-list update for the instance stores. -/
def insertD : List (String × DVal) → String → DVal → List (String × DVal)
  | [], s, v => [(s, v)]
  | (k, w) :: rest, s, v =>
    if k = s then (k, v) :: rest else (k, w) :: insertD rest s v

/-- Per-instance accumulator state: `data` is the durable property store
(`__data`), `dataTemp` the temporary cache (`__dataTemp`) that lives for
one dispatch cycle only, `dataPending` the batch of changes pending for
the current cycle (`__dataPending`).  Keys are canonical path strings. -/
structure Inst where
  data : List (String × DVal)
  dataTemp : List (String × DVal)
  dataPending : List (String × DVal)

/-- Modelled from the spec: `_setPendingProperty` with the documented
dirty-check policy (the executable implementation is not in the
repository; the declaration file documents the three cases).
1. any value set to a path: stored in `dataTemp`, dirty-checked against
   `dataTemp`;
2. an object set to a simple property: stored in `dataTemp` and `data`,
   dirty-checked against `dataTemp`;
3. a primitive set to a simple property: stored in `data`, dirty-checked
   against `data`.
A changed write is recorded in the pending batch and the call returns
`true`; an unchanged write records nothing and returns `false`.
`isPathWrite` tells whether the key is a path rather than a simple
property. -/
def _setPendingProperty (i : Inst) (p : String) (v : DVal) (isPathWrite : Bool) :
    Inst × Bool :=
  if isPathWrite || v.isObj then
    if lookupD i.dataTemp p = some v then (i, false)
    else
      ({ data := if isPathWrite then i.data else insertD i.data p v,
         dataTemp := insertD i.dataTemp p v,
         dataPending := insertD i.dataPending p v }, true)
  else
    if lookupD i.data p = some v then (i, false)
    else
      ({ i with data := insertD i.data p v,
                dataPending := insertD i.dataPending p v }, true)

/-- Modelled from the spec: when the outermost `_propertiesChanged` exits,
the temporary cache is cleared (and the pending batch has been consumed);
the durable store persists across cycles. -/
def cycleEnd (i : Inst) : Inst :=
  { i with dataTemp := [], dataPending := [] }

/-! ### Effect registry and the effect dispatcher
(`addPropertyEffect`, `_propertiesChanged`) -/

/-- The five effect types, a fixed totally ordered enumeration. -/
inductive EffectType where
  | compute
  | propagate
  | reflect
  | observe
  | notify
deriving DecidableEq

/-- The fixed dispatch order of the effect types: effects are called from
`_propertiesChanged` in the order COMPUTE, PROPAGATE, REFLECT, OBSERVE,
NOTIFY. -/
def typeRank : EffectType → Nat
  | .compute => 0
  | .propagate => 1
  | .reflect => 2
  | .observe => 3
  | .notify => 4

/-- An effect record: `id` identifies the registered effect function,
`trigger` is the triggering path (`none` for a wildcard effect, invoked
whenever any property in the batch changes), and `writes` lists the
properties the effect itself writes when invoked (meaningful for COMPUTE
effects, which may write new properties during the cycle). -/
structure Effect where
  id : Nat
  trigger : Option (List String)
  writes : List (List String)
deriving DecidableEq

/-- The per-type effect registry, each list in registration order. -/
structure Registry where
  compute : List Effect
  propagate : List Effect
  reflect : List Effect
  observe : List Effect
  notify : List Effect

/-- The registered effect list of a given type. -/
def typeList (reg : Registry) : EffectType → List Effect
  | .compute => reg.compute
  | .propagate => reg.propagate
  | .reflect => reg.reflect
  | .observe => reg.observe
  | .notify => reg.notify

/-- Modelled from the spec: the path-matching rule — a changed path `p`
triggers an effect when the effect is a wildcard, or its trigger path `t`
equals `p`, or `t` is a strict ancestor of `p`, or `p` is a strict
ancestor of `t` (a write to a coarser path dirties finer registered
paths). -/
def effectMatches (e : Effect) (p : List String) : Bool :=
  match e.trigger with
  | none => true
  | some t => p == t || isAncestor t p || isAncestor p t

/-- Whether some changed path of the batch matches the effect. -/
def matchedBy (batch : List (List String)) (e : Effect) : Bool :=
  batch.any (fun p => effectMatches e p)

/-- One recorded effect invocation: the effect type, the invoked effect's
id, and the bag of changed paths passed to the effect function. -/
structure Invocation where
  type : EffectType
  id : Nat
  props : List (List String)

/-- Modelled from the spec: one dispatch phase — every registered effect
of the type that is matched by the batch is invoked exactly once, in
registration order, and each invocation is passed the full batch. -/
def runType (t : EffectType) (effects : List Effect) (batch : List (List String)) :
    List Invocation :=
  (effects.filter (fun e => matchedBy batch e)).map (fun e => ⟨t, e.id, batch⟩)

/-- The first registered effect that is matched by the batch and has not
run yet this cycle. -/
def findRunnable (effects : List Effect) (batch : List (List String))
    (done : List Nat) : Option Effect :=
  effects.find? (fun e => !done.contains e.id && matchedBy batch e)

/-- Fold the paths written by an effect into the running batch, keeping
each changed path once. -/
def mergeWrites (batch ws : List (List String)) : List (List String) :=
  batch ++ ws.filter (fun w => !batch.contains w)

/-- Modelled from the spec: the COMPUTE phase.  Compute effects may write
new properties synchronously; those writes are folded into the same
still-running cycle, newly matched compute effects run in turn, and no
effect runs twice (the `done` list).  Returns the final merged batch and
the compute invocations; each invocation records the batch of all
properties changed so far at its call.  The phase drains to a fixed
point; `fuel` bounds the iteration and one unit per registered compute
effect always suffices, since every step retires one effect
(`computePhase_complete` below makes this exact). -/
def computePhase (fuel : Nat) (effects : List Effect) (batch : List (List String))
    (done : List Nat) : List (List String) × List Invocation :=
  match fuel with
  | 0 => (batch, [])
  | fuel + 1 =>
    match findRunnable effects batch done with
    | none => (batch, [])
    | some e =>
      let r := computePhase fuel effects (mergeWrites batch e.writes) (e.id :: done)
      (r.1, ⟨.compute, e.id, batch⟩ :: r.2)

/-- Modelled from the spec: one flush of `_propertiesChanged` — first the
COMPUTE phase (folding computed writes into the batch), then the
PROPAGATE, REFLECT, OBSERVE and NOTIFY phases in fixed order, each over
the final merged batch.  Returns the final batch and the invocation
trace. -/
def flush (reg : Registry) (batch : List (List String)) :
    List (List String) × List Invocation :=
  let c := computePhase reg.compute.length reg.compute batch []
  (c.1, c.2
    ++ runType .propagate reg.propagate c.1
    ++ runType .reflect reg.reflect c.1
    ++ runType .observe reg.observe c.1
    ++ runType .notify reg.notify c.1)

/-- How often the flush trace invokes effect id `a` at type `t`. -/
def countInv (invs : List Invocation) (t : EffectType) (a : Nat) : Nat :=
  (invs.filter (fun x => x.type == t && x.id == a)).length

/-! ### Path linking (`linkPaths`, `unlinkPaths`) -/

/-- The instance's standing path aliases: entries `(to, from)`, keyed by
the target path `to` (the alias name); `from` is the source of truth. -/
structure Links where
  entries : List (List String × List String)

/-- An instance with no links installed. -/
def emptyLinks : Links := ⟨[]⟩

/-- Modelled from the spec: `linkPaths to from` installs a standing alias
so that notifications of `from` are re-emitted as notifications of `to`;
a previous link with the same target is replaced (the alias store is
keyed by the target path). -/
def linkPaths (l : Links) (to_ from_ : List String) : Links :=
  ⟨(to_, from_) :: l.entries.filter (fun x => x.1 != to_)⟩

/-- Modelled from the spec: `unlinkPaths path` removes the alias whose
target (`to`) is `path`. -/
def unlinkPaths (l : Links) (p : List String) : Links :=
  ⟨l.entries.filter (fun x => x.1 != p)⟩

/-- Modelled from the spec: the paths a notification of `p` is observed
on — `p` itself, plus, for every link `(to, from)` whose source `from` is
`p` or an ancestor of `p`, the path translated from `from` to `to`. -/
def notifyEmits (l : Links) (p : List String) : List (List String) :=
  p :: l.entries.filterMap (fun x =>
    if x.2 == p || isAncestor x.2 p then some (translate x.2 x.1 p) else none)

/-! ### Array mutation notifier (`splice`, `push`, `notifySplices`) -/

/-- A normalized splice change record: the index at which the change
occurred, the removed items, and the number of added items. -/
structure SpliceRecord where
  index : Nat
  removed : List Value
  addedCount : Nat

/-- An instance as the array-mutation notifier sees it: the property
graph and the splice records notified so far, in emission order. -/
structure ArrInst where
  root : Value
  notifications : List SpliceRecord

/-- Modelled from the spec: `splice path start deleteCount items`
performs the native-splice-equivalent mutation on the array reachable at
`path` (clamping `start` and `deleteCount` to the array bounds as
`Array.prototype.splice` does) and, when anything was removed or added,
emits exactly one splice record for the affected index range. -/
def splice (st : ArrInst) (path : List String) (start delCount : Nat)
    (ins : List Value) : ArrInst :=
  match get path st.root with
  | .arr items =>
    let s := min start items.length
    let d := min delCount (items.length - s)
    let newArr := items.take s ++ ins ++ items.drop (s + d)
    let removed := (items.drop s).take d
    if d > 0 || ins.length > 0 then
      { root := set path (.arr newArr) st.root,
        notifications := st.notifications ++ [⟨s, removed, ins.length⟩] }
    else st
  | _ => st

/-- Modelled from the spec: `push path items` appends the items to the
array reachable at `path` and, when at least one item was added, emits
one splice record at the array's old length with nothing removed. -/
def push (st : ArrInst) (path : List String) (items : List Value) : ArrInst :=
  match get path st.root with
  | .arr arr =>
    if items.length > 0 then
      { root := set path (.arr (arr ++ items)) st.root,
        notifications := st.notifications ++ [⟨arr.length, [], items.length⟩] }
    else st
  | _ => st

/-! ### The public `set` API (`set(path, value, root?)`, `setProperties`) -/

/-- An instance as the public `set` API sees it: the instance property
graph, the pending-change batch, the temporary cache, and the number of
effect dispatches triggered so far. -/
structure SetInst where
  root : Value
  pending : List (List String × Value)
  temp : List (List String × Value)
  flushCount : Nat

/-- Lookup in the temporary cache of an instance, by path. -/
def lookupTemp : List (List String × Value) → List String → Option Value
  | [], _ => none
  | (k, v) :: rest, p => if k = p then some v else lookupTemp rest p

mutual

/-- Structural equality of graph values, the comparison rule the
`SetInst` model's per-cycle dirty check uses. -/
def beqVal : Value → Value → Bool
  | .undefined, .undefined => true
  | .prim a, .prim b => a == b
  | .str a, .str b => a == b
  | .obj fs, .obj gs => beqFields fs gs
  | .arr xs, .arr ys => beqItems xs ys
  | _, _ => false

/-- Structural equality of object field lists. -/
def beqFields : List (String × Value) → List (String × Value) → Bool
  | [], [] => true
  | (k, v) :: fs, (k2, v2) :: gs => k == k2 && beqVal v v2 && beqFields fs gs
  | _, _ => false

/-- Structural equality of array item lists. -/
def beqItems : List Value → List Value → Bool
  | [], [] => true
  | v :: xs, w :: ys => beqVal v w && beqItems xs ys
  | _, _ => false

end

/-- Whether the value already written to this exact path during the
current cycle equals the value being written now: the temporary-cache
dirty check of a path write. -/
def tempHit (temp : List (List String × Value)) (p : List String) (v : Value) : Bool :=
  match lookupTemp temp p with
  | some w => beqVal w v
  | none => false

/-- Modelled from the spec: the public `set(path, value, root?)`.  With
an explicit root supplied, the value is written at the path inside that
root and no notification occurs — the instance is untouched and the
updated root is returned.  Without a root, the write goes through the
instance: a path with an undefined intermediate segment is a silent
no-op; a write whose value equals the value already written to that
exact path this cycle is suppressed by the temporary-cache dirty check
(values compare structurally here; the reference-identity aspects of
the dirty check, and the delegation of registered simple properties to
the simple-property rule, are modelled precisely by
`_setPendingProperty` over `DVal`); otherwise the instance graph is
updated, the change is recorded in the pending batch and the temporary
cache, and a synchronous effect dispatch is triggered. -/
def apiSet (i : SetInst) (path : List String) (v : Value) (root? : Option Value) :
    SetInst × Option Value :=
  match root? with
  | some r => (i, some (set path v r))
  | none =>
    if brokenAt path i.root then (i, none)
    else if tempHit i.temp path v then (i, none)
    else
      ({ root := set path v i.root,
         pending := (path, v) :: i.pending,
         temp := (path, v) :: i.temp,
         flushCount := i.flushCount + 1 }, none)

/-- Modelled from the spec: `setProperties props setReadOnly` accepts
only simple property names as keys; a bag containing a dotted path key is
a caller-contract violation that fails loudly with an invalid-argument
error.  Otherwise every (non-read-only, unless `setReadOnly`) entry is
set as a pending simple-property change. -/
def setProperties (i : Inst) (props : List (String × DVal))
    (setReadOnly : Bool) (readOnly : List String) : Except String Inst :=
  if props.any (fun kv => kv.1.data.contains '.') then
    .error "invalid argument: setProperties does not support paths"
  else
    .ok (props.foldl (fun acc kv =>
      if !setReadOnly && readOnly.contains kv.1 then acc
      else (_setPendingProperty acc kv.1 kv.2 false).1) i)

/-!
## Theorems

First the supporting lemmas about the path utility and the object graph,
then one theorem per specification claim.
-/

/-- The test `isAncestor base p` holds exactly when `p` extends `base` by at least
one further part. -/
theorem isAncestor_iff (base p : List String) :
    isAncestor base p = true ↔ ∃ rest, rest ≠ [] ∧ p = base ++ rest := by
  induction base generalizing p with
  | nil =>
    cases p with
    | nil => simp [isAncestor]
    | cons b bs =>
      simp only [isAncestor, List.nil_append, true_iff]
      exact ⟨b :: bs, by simp, rfl⟩
  | cons a as ih =>
    cases p with
    | nil => simp [isAncestor]
    | cons b bs =>
      simp only [isAncestor, Bool.and_eq_true, beq_iff_eq, ih, List.cons_append,
        List.cons.injEq]
      constructor
      · rintro ⟨hab, rest, hne, hrest⟩
        exact ⟨rest, hne, hab.symm, hrest⟩
      · rintro ⟨rest, hne, hab, hrest⟩
        exact ⟨hab.symm, rest, hne, hrest⟩

/-- A value is `undefined` exactly when `isUndefVal` says so. -/
theorem Value.isUndefVal_iff (v : Value) : v.isUndefVal = true ↔ v = .undefined := by
  cases v <;> simp [Value.isUndefVal]

/-- Dereferencing any path from `undefined` yields `undefined`. -/
theorem get_undef (p : List String) : get p .undefined = .undefined := by
  induction p with
  | nil => rfl
  | cons s rest ih => simpa [get, getSeg] using ih

/-- Reading back the property just written on a field list. -/
theorem lookupProp_setProp (fields : List (String × Value)) (s : String) (v : Value) :
    lookupProp (setProp fields s v) s = v := by
  induction fields with
  | nil => simp [setProp, lookupProp]
  | cons kv rest ih =>
    obtain ⟨k, w⟩ := kv
    by_cases hk : k = s
    · simp [setProp, lookupProp, hk]
    · simp [setProp, lookupProp, hk, ih]

/-- Reading position `n` just past `n` padding elements. -/
theorem getD_replicate_append (n : Nat) (d v : Value) (t : List Value) :
    (List.replicate n d ++ v :: t).getD n .undefined = v := by
  induction n with
  | zero => rfl
  | succ m ih => simpa [List.replicate_succ, List.getD_cons_succ] using ih

/-- Reading back the array element just written by `setIdx`. -/
theorem getD_setIdx (items : List Value) (i : Nat) (v : Value) :
    (setIdx items i v).getD i .undefined = v := by
  induction items generalizing i with
  | nil => simpa [setIdx] using getD_replicate_append i .undefined v []
  | cons a rest ih =>
    cases i with
    | zero => simp [setIdx, List.getD_cons_zero]
    | succ j =>
      by_cases hlt : j < rest.length
      · have heq : setIdx (a :: rest) (j + 1) v = a :: rest.set j v := by
          simp [setIdx, Nat.succ_lt_succ hlt]
        rw [heq, List.getD_cons_succ]
        simpa [setIdx, hlt] using ih j
      · have heq : setIdx (a :: rest) (j + 1) v = a :: setIdx rest j v := by
          simp [setIdx, hlt, Nat.succ_sub_succ, List.append_assoc]
        rw [heq, List.getD_cons_succ]
        exact ih j

/-- Reading back through the part just written, whenever the old
dereference of that part was defined. -/
theorem getSeg_setSeg_of_defined {root : Value} {s : String} (w : Value)
    (h : (getSeg root s).isUndefVal = false) : getSeg (setSeg root s w) s = w := by
  cases root with
  | undefined => simp [getSeg, Value.isUndefVal] at h
  | prim n => simp [getSeg, Value.isUndefVal] at h
  | str t => simp [getSeg, Value.isUndefVal] at h
  | obj fields => simp [getSeg, setSeg, lookupProp_setProp]
  | arr items =>
    cases hn : s.toNat? with
    | none => simp [getSeg, hn, Value.isUndefVal] at h
    | some i =>
      simp only [getSeg, setSeg, hn]
      simpa using getD_setIdx items i w

/-- Reading back the last part just written, whenever that part can hold
a write. -/
theorem getSeg_setSeg_base {root : Value} {s : String} (w : Value)
    (h : canWrite [s] root = true) : getSeg (setSeg root s w) s = w := by
  cases root with
  | undefined => simp [canWrite] at h
  | prim n => simp [canWrite] at h
  | str t => simp [canWrite] at h
  | obj fields => simp [getSeg, setSeg, lookupProp_setProp]
  | arr items =>
    cases hn : s.toNat? with
    | none => simp [canWrite, hn] at h
    | some i =>
      simp only [getSeg, setSeg, hn]
      simpa using getD_setIdx items i w

/-- Writing back the value a field list already holds changes nothing,
whenever that value is defined. -/
theorem setProp_lookupProp_self (fields : List (String × Value)) (s : String)
    (h : (lookupProp fields s).isUndefVal = false) :
    setProp fields s (lookupProp fields s) = fields := by
  induction fields with
  | nil => simp [lookupProp, Value.isUndefVal] at h
  | cons kv rest ih =>
    obtain ⟨k, w⟩ := kv
    by_cases hk : k = s
    · simp [lookupProp, setProp, hk]
    · simp only [lookupProp, if_neg hk] at h
      simp [lookupProp, setProp, hk, ih h]

/-- Writing back the element an array already holds changes nothing. -/
theorem list_set_self (items : List Value) (i : Nat) (h : i < items.length) :
    items.set i items[i] = items := by
  induction items generalizing i with
  | nil => simp at h
  | cons a rest ih =>
    cases i with
    | zero => simp
    | succ j =>
      simp only [List.getElem_cons_succ, List.set]
      exact congrArg (a :: ·) (ih j (by simpa using h))

/-- Writing back the dereference a container already holds changes
nothing, whenever that dereference is defined. -/
theorem setSeg_getSeg_self {root : Value} {s : String}
    (h : (getSeg root s).isUndefVal = false) : setSeg root s (getSeg root s) = root := by
  cases root with
  | undefined => simp [setSeg]
  | prim n => simp [setSeg]
  | str t => simp [setSeg]
  | obj fields =>
    simp only [getSeg, setSeg, Value.obj.injEq]
    exact setProp_lookupProp_self fields s (by simpa [getSeg] using h)
  | arr items =>
    cases hn : s.toNat? with
    | none => simp [setSeg, hn]
    | some i =>
      have hi : i < items.length := by
        by_contra hge
        have hnone : items[i]? = none :=
          List.getElem?_eq_none (Nat.le_of_not_lt hge)
        simp [getSeg, hn, hnone, Value.isUndefVal] at h
      simp only [getSeg, setSeg, hn, setIdx, if_pos hi]
      rw [List.getD_eq_getElem?_getD, List.getElem?_eq_getElem hi, Option.getD_some,
        list_set_self items i hi]

/-- A path with an undefined intermediate dereference reads as
`undefined`. -/
theorem get_of_brokenAt {path : List String} {root : Value}
    (h : brokenAt path root = true) : get path root = .undefined := by
  induction path generalizing root with
  | nil => simp [brokenAt] at h
  | cons s tail ih =>
    cases tail with
    | nil => simp [brokenAt] at h
    | cons s2 rest =>
      simp only [brokenAt, Bool.or_eq_true] at h
      rcases h with h | h
      · rw [get, (Value.isUndefVal_iff _).mp h, get_undef]
      · rw [get]
        exact ih h

/-- A write along a path with an undefined intermediate dereference is a
no-op. -/
theorem set_of_brokenAt {path : List String} {root : Value} (v : Value)
    (h : brokenAt path root = true) : set path v root = root := by
  induction path generalizing root with
  | nil => simp [brokenAt] at h
  | cons s tail ih =>
    cases tail with
    | nil => simp [brokenAt] at h
    | cons s2 rest =>
      simp only [brokenAt, Bool.or_eq_true] at h
      by_cases hc : (getSeg root s).isUndefVal
      · simp [set, hc]
      · rcases h with h | h
        · exact absurd h hc
        · have hrec : set (s2 :: rest) v (getSeg root s) = getSeg root s := ih h
          simp only [set, Bool.not_eq_true] at hc ⊢
          rw [if_neg (by simp [hc]), hrec, setSeg_getSeg_self hc]

/-- Writing at a writable path and reading it back returns the written
value. -/
theorem get_set_of_canWrite (path : List String) (root v : Value)
    (h : canWrite path root = true) : get path (set path v root) = v := by
  induction path generalizing root with
  | nil => simp [canWrite] at h
  | cons s tail ih =>
    cases tail with
    | nil => simpa [get, set] using getSeg_setSeg_base v h
    | cons s2 rest =>
      have hc : (getSeg root s).isUndefVal = false
          ∧ canWrite (s2 :: rest) (getSeg root s) = true := by
        simpa [canWrite] using h
      rw [show set (s :: s2 :: rest) v root
            = setSeg root s (set (s2 :: rest) v (getSeg root s)) from by
          simp [set, hc.1]]
      rw [show get (s :: s2 :: rest)
              (setSeg root s (set (s2 :: rest) v (getSeg root s)))
            = get (s2 :: rest)
              (getSeg (setSeg root s (set (s2 :: rest) v (getSeg root s))) s) from rfl]
      rw [getSeg_setSeg_of_defined _ hc.1]
      exact ih _ hc.2

/-- C7: Round-trip — for every path whose intermediate segments are all
present in the object graph (and whose last part lands on a container
that can hold the write), `get path` after `set path v` returns `v`. -/
theorem c7_get_set_roundtrip (path : List String) (root v : Value)
    (h : canWrite path root = true) : get path (set path v root) = v :=
  get_set_of_canWrite path root v h

/-- Witness for C7 at a concrete input. -/
theorem c7_get_set_roundtrip_witness :
    canWrite ["a", "b"] (Value.obj [("a", Value.obj [("b", Value.prim 1)])]) = true
    ∧ get ["a", "b"]
        (set ["a", "b"] (Value.prim 7)
          (Value.obj [("a", Value.obj [("b", Value.prim 1)])]))
      = Value.prim 7 :=
  ⟨by rfl, c7_get_set_roundtrip ["a", "b"] _ (Value.prim 7) (by rfl)⟩

/-- C8: a path with an undefined intermediate segment is a silent no-op —
`get` returns `undefined`, the path-utility `set` leaves the root
unchanged, and the public `set` (the underlying pending write) leaves the
whole instance unchanged: no pending change, no temp-cache entry, no
dispatch.  All the functions involved are total, so no exception is
thrown. -/
theorem c8_missing_intermediate_noop (path : List String) (v : Value) (i : SetInst)
    (h : brokenAt path i.root = true) :
    get path i.root = Value.undefined
    ∧ set path v i.root = i.root
    ∧ apiSet i path v none = (i, none) := by
  refine ⟨get_of_brokenAt h, set_of_brokenAt v h, ?_⟩
  simp [apiSet, h]

/-- Witness for C8 at a concrete input. -/
theorem c8_missing_intermediate_noop_witness :
    brokenAt ["x", "y"] (Value.obj [("a", Value.prim 1)]) = true
    ∧ (get ["x", "y"] (Value.obj [("a", Value.prim 1)]) = Value.undefined
       ∧ set ["x", "y"] (Value.prim 2) (Value.obj [("a", Value.prim 1)])
           = Value.obj [("a", Value.prim 1)]
       ∧ apiSet ⟨Value.obj [("a", Value.prim 1)], [], [], 0⟩ ["x", "y"]
           (Value.prim 2) none
           = (⟨Value.obj [("a", Value.prim 1)], [], [], 0⟩, none)) :=
  ⟨by rfl,
   c8_missing_intermediate_noop ["x", "y"] (Value.prim 2)
     ⟨Value.obj [("a", Value.prim 1)], [], [], 0⟩ (by rfl)⟩

/-- Looking up the key just inserted into an instance store. -/
theorem lookupD_insertD (m : List (String × DVal)) (k : String) (v : DVal) :
    lookupD (insertD m k v) k = some v := by
  induction m with
  | nil => simp [insertD, lookupD]
  | cons kv rest ih =>
    obtain ⟨a, b⟩ := kv
    by_cases ha : a = k
    · simp [insertD, lookupD, ha]
    · simp [insertD, lookupD, ha, ih]

/-- C3: the three-way dirty-check policy of `_setPendingProperty`.
With `i` an instance at a cycle boundary (temporary cache cleared):
1. a primitive written twice to a simple property in one cycle is
   suppressed the second time (it dirty-checks against the durable
   store, which the first write filled);
2. a path written twice with the same value in one cycle is suppressed
   the second time (it dirty-checks against the temporary cache);
3. an object reference written to a simple property re-propagates in a
   later, separate cycle even when the durable store still holds that
   very reference, because objects dirty-check against the temporary
   cache which is cleared between cycles. -/
theorem c3_dirty_check_policy (i : Inst) (p q r : String) (v w : DVal) (n : Nat)
    (hprim : v.isObj = false) (hclear : i.dataTemp = [])
    (hdur : lookupD i.data q = some (DVal.objRef n)) :
    (_setPendingProperty (_setPendingProperty i p v false).1 p v false
       = ((_setPendingProperty i p v false).1, false))
    ∧ (_setPendingProperty (_setPendingProperty i r w true).1 r w true
       = ((_setPendingProperty i r w true).1, false))
    ∧ (_setPendingProperty i q (DVal.objRef n) false).2 = true := by
  refine ⟨?_, ?_, ?_⟩
  · by_cases h1 : lookupD i.data p = some v
    · simp [_setPendingProperty, hprim, h1]
    · simp [_setPendingProperty, hprim, h1, lookupD_insertD]
  · by_cases h1 : lookupD i.dataTemp r = some w
    · simp [_setPendingProperty, h1]
    · simp [_setPendingProperty, h1, lookupD_insertD]
  · simp [_setPendingProperty, DVal.isObj, hclear, lookupD]

/-- Witness for C3 at a concrete input. -/
theorem c3_dirty_check_policy_witness :
    ((DVal.prim 3).isObj = false
     ∧ (Inst.mk [("q", DVal.objRef 5)] [] []).dataTemp = []
     ∧ lookupD (Inst.mk [("q", DVal.objRef 5)] [] []).data "q"
         = some (DVal.objRef 5))
    ∧ ((_setPendingProperty
          (_setPendingProperty (Inst.mk [("q", DVal.objRef 5)] [] [])
            "p" (DVal.prim 3) false).1 "p" (DVal.prim 3) false
        = ((_setPendingProperty (Inst.mk [("q", DVal.objRef 5)] [] [])
            "p" (DVal.prim 3) false).1, false))
       ∧ (_setPendingProperty
            (_setPendingProperty (Inst.mk [("q", DVal.objRef 5)] [] [])
              "r.x" (DVal.prim 4) true).1 "r.x" (DVal.prim 4) true
          = ((_setPendingProperty (Inst.mk [("q", DVal.objRef 5)] [] [])
              "r.x" (DVal.prim 4) true).1, false))
       ∧ (_setPendingProperty (Inst.mk [("q", DVal.objRef 5)] [] [])
            "q" (DVal.objRef 5) false).2 = true) :=
  ⟨⟨rfl, rfl, by rfl⟩,
   c3_dirty_check_policy (Inst.mk [("q", DVal.objRef 5)] [] [])
     "p" "q" "r.x" (DVal.prim 3) (DVal.prim 4) 5 rfl rfl (by rfl)⟩

/-- C5: after `linkPaths to from`, a notification of `from` is re-emitted
as a notification of `to`; the reverse direction is not implied — a
notification of `to` is not re-emitted on `from`; and after
`unlinkPaths to` a notification of `from` no longer reaches observers of
`to`. -/
theorem c5_link_paths_directional (to_ from_ : List String)
    (hne : to_ ≠ from_) (hanc : isAncestor from_ to_ = false) :
    to_ ∈ notifyEmits (linkPaths emptyLinks to_ from_) from_
    ∧ from_ ∉ notifyEmits (linkPaths emptyLinks to_ from_) to_
    ∧ to_ ∉ notifyEmits (unlinkPaths (linkPaths emptyLinks to_ from_) to_) from_ := by
  refine ⟨?_, ?_, ?_⟩
  · simp [notifyEmits, linkPaths, emptyLinks, translate, List.drop_length]
  · have hba : (from_ == to_) = false := beq_eq_false_iff_ne.mpr (Ne.symm hne)
    simp [notifyEmits, linkPaths, emptyLinks, hba, hanc, Ne.symm hne]
  · simp [notifyEmits, unlinkPaths, linkPaths, emptyLinks, hne]

/-- Witness for C5 at the spec's concrete input: link the alias
`a.alias` to the source `b.source`. -/
theorem c5_link_paths_directional_witness :
    ((["a", "alias"] : List String) ≠ ["b", "source"]
     ∧ isAncestor ["b", "source"] ["a", "alias"] = false)
    ∧ (["a", "alias"]
         ∈ notifyEmits (linkPaths emptyLinks ["a", "alias"] ["b", "source"])
             ["b", "source"]
       ∧ ["b", "source"]
           ∉ notifyEmits (linkPaths emptyLinks ["a", "alias"] ["b", "source"])
             ["a", "alias"]
       ∧ ["a", "alias"]
           ∉ notifyEmits
             (unlinkPaths (linkPaths emptyLinks ["a", "alias"] ["b", "source"])
               ["a", "alias"])
             ["b", "source"]) :=
  ⟨⟨by decide, by rfl⟩,
   c5_link_paths_directional ["a", "alias"] ["b", "source"] (by decide) (by rfl)⟩

/-- C6: on any array `[A, B, C]` reachable at `items`,
`splice "items" 1 1 [{name: "Sam"}]` performs the native-splice-equivalent
mutation, leaving `[A, {name: "Sam"}, C]`, and emits exactly one splice
record `{index: 1, removed: [B], addedCount: 1}`; a subsequent
`push "items" X` emits `{index: 3, removed: [], addedCount: 1}` as a
second, independent notification, the records in ascending index order. -/
theorem c6_splice_then_push (A B C X : Value) :
    get ["items"]
        (splice (ArrInst.mk (Value.obj [("items", Value.arr [A, B, C])]) [])
          ["items"] 1 1 [Value.obj [("name", Value.str "Sam")]]).root
      = Value.arr [A, Value.obj [("name", Value.str "Sam")], C]
    ∧ (splice (ArrInst.mk (Value.obj [("items", Value.arr [A, B, C])]) [])
          ["items"] 1 1 [Value.obj [("name", Value.str "Sam")]]).notifications
      = [SpliceRecord.mk 1 [B] 1]
    ∧ (push
        (splice (ArrInst.mk (Value.obj [("items", Value.arr [A, B, C])]) [])
          ["items"] 1 1 [Value.obj [("name", Value.str "Sam")]])
        ["items"] [X]).notifications
      = [SpliceRecord.mk 1 [B] 1, SpliceRecord.mk 3 [] 1] :=
  ⟨rfl, rfl, rfl⟩

/-- C9: `setProperties` accepts only simple property names; any bag
containing a dotted path key makes the whole call fail loudly with an
invalid-argument error instead of silently mis-setting the path. -/
theorem c9_set_properties_rejects_paths (i : Inst) (props : List (String × DVal))
    (sro : Bool) (ro : List String) (k : String) (v : DVal)
    (hk : (k, v) ∈ props) (hdot : k.data.contains '.' = true) :
    ∃ msg, setProperties i props sro ro = Except.error msg := by
  refine ⟨"invalid argument: setProperties does not support paths", ?_⟩
  have hany : props.any (fun kv => kv.1.data.contains '.') = true :=
    List.any_eq_true.mpr ⟨(k, v), hk, hdot⟩
  unfold setProperties
  rw [if_pos hany]

/-- Witness for C9 at a concrete input. -/
theorem c9_set_properties_rejects_paths_witness :
    (("a.b", DVal.prim 1) ∈ [("a.b", DVal.prim 1)]
     ∧ "a.b".data.contains '.' = true)
    ∧ ∃ msg, setProperties (Inst.mk [] [] []) [("a.b", DVal.prim 1)] false []
        = Except.error msg :=
  ⟨⟨by decide, by decide⟩,
   c9_set_properties_rejects_paths (Inst.mk [] [] []) [("a.b", DVal.prim 1)]
     false [] "a.b" (DVal.prim 1) (by decide) (by decide)⟩

/-- C10: `set path value root` with an explicit root writes the value at
the path inside that root and dispatches nothing — the instance (its
graph, pending batch, temporary cache and dispatch count) is returned
unchanged, and when the path is writable inside the supplied root the
written value is readable back from the returned root. -/
theorem c10_set_with_root_frame (i : SetInst) (path : List String) (v r : Value)
    (h : canWrite path r = true) :
    apiSet i path v (some r) = (i, some (set path v r))
    ∧ get path (set path v r) = v :=
  ⟨rfl, get_set_of_canWrite path r v h⟩

/-- Witness for C10 at a concrete input. -/
theorem c10_set_with_root_frame_witness :
    canWrite ["a"] (Value.obj [("a", Value.prim 1)]) = true
    ∧ (apiSet (SetInst.mk (Value.obj []) [] [] 0) ["a"] (Value.prim 9)
          (some (Value.obj [("a", Value.prim 1)]))
        = ((SetInst.mk (Value.obj []) [] [] 0),
           some (set ["a"] (Value.prim 9) (Value.obj [("a", Value.prim 1)])))
       ∧ get ["a"] (set ["a"] (Value.prim 9) (Value.obj [("a", Value.prim 1)]))
           = Value.prim 9) :=
  ⟨by rfl,
   c10_set_with_root_frame (SetInst.mk (Value.obj []) [] [] 0) ["a"]
     (Value.prim 9) (Value.obj [("a", Value.prim 1)]) (by rfl)⟩

/-- Folding writes with `mergeWrites` keeps every path of the running batch. -/
theorem subset_mergeWrites (batch ws : List (List String)) :
    batch ⊆ mergeWrites batch ws :=
  List.subset_append_left _ _

/-- The running batch only grows during the COMPUTE phase. -/
theorem computePhase_batch_mono (fuel : Nat) (effects : List Effect)
    (batch : List (List String)) (done : List Nat) :
    batch ⊆ (computePhase fuel effects batch done).1 := by
  induction fuel generalizing batch done with
  | zero => simp [computePhase]
  | succ f ih =>
    cases h : findRunnable effects batch done with
    | none => simp [computePhase, h]
    | some e =>
      intro p hp
      simp only [computePhase, h]
      exact ih _ _ (subset_mergeWrites _ _ hp)

/-- An effect matched by a batch is matched by any larger batch. -/
theorem matchedBy_mono {b1 b2 : List (List String)} (hsub : b1 ⊆ b2) {e : Effect}
    (h : matchedBy b1 e = true) : matchedBy b2 e = true := by
  rcases List.any_eq_true.mp h with ⟨p, hp, hm⟩
  exact List.any_eq_true.mpr ⟨p, hsub hp, hm⟩

/-- Every COMPUTE-phase invocation has effect type COMPUTE and carries
the batch of all properties changed up to its call: at least the paths
the phase started from, and nothing outside the final merged batch. -/
theorem computePhase_trace_shape (fuel : Nat) (effects : List Effect)
    (batch : List (List String)) (done : List Nat) :
    ∀ x ∈ (computePhase fuel effects batch done).2,
      x.type = .compute ∧ batch ⊆ x.props
      ∧ x.props ⊆ (computePhase fuel effects batch done).1 := by
  induction fuel generalizing batch done with
  | zero => simp [computePhase]
  | succ f ih =>
    cases h : findRunnable effects batch done with
    | none => simp [computePhase, h]
    | some e =>
      intro x hx
      simp only [computePhase, h, List.mem_cons] at hx ⊢
      rcases hx with rfl | hx
      · refine ⟨rfl, List.Subset.refl _, ?_⟩
        intro p hp
        exact computePhase_batch_mono f effects _ _ (subset_mergeWrites _ _ hp)
      · obtain ⟨ht, hsub, hfin⟩ := ih _ _ x hx
        exact ⟨ht, fun p hp => hsub (subset_mergeWrites _ _ hp), hfin⟩

/-- Every COMPUTE-phase invocation names an effect that had not run
before the phase, is registered, and is matched by the final batch. -/
theorem computePhase_trace_ids (fuel : Nat) (effects : List Effect)
    (batch : List (List String)) (done : List Nat) :
    ∀ x ∈ (computePhase fuel effects batch done).2,
      x.id ∉ done
      ∧ ∃ e, e ∈ effects ∧ e.id = x.id
          ∧ matchedBy (computePhase fuel effects batch done).1 e = true := by
  induction fuel generalizing batch done with
  | zero => simp [computePhase]
  | succ f ih =>
    cases h : findRunnable effects batch done with
    | none => simp [computePhase, h]
    | some e =>
      intro x hx
      simp only [computePhase, h, List.mem_cons] at hx ⊢
      have hmem : e ∈ effects := List.mem_of_find?_eq_some h
      have hpred := List.find?_some h
      rw [Bool.and_eq_true, Bool.not_eq_true'] at hpred
      have hdone : e.id ∉ done := by simpa using hpred.1
      rcases hx with rfl | hx
      · refine ⟨hdone, e, hmem, rfl, ?_⟩
        exact matchedBy_mono
          (fun p hp => computePhase_batch_mono f effects _ _ (subset_mergeWrites _ _ hp))
          hpred.2
      · obtain ⟨hnd, e', he', hid, hm⟩ := ih _ _ x hx
        exact ⟨fun hcon => hnd (List.mem_cons_of_mem _ hcon), e', he', hid, hm⟩

/-- No effect id repeats in the COMPUTE-phase trace: the `done` list
dedupes the phase. -/
theorem computePhase_trace_nodup (fuel : Nat) (effects : List Effect)
    (batch : List (List String)) (done : List Nat) :
    (((computePhase fuel effects batch done).2).map Invocation.id).Nodup := by
  induction fuel generalizing batch done with
  | zero => simp [computePhase]
  | succ f ih =>
    cases h : findRunnable effects batch done with
    | none => simp [computePhase, h]
    | some e =>
      simp only [computePhase, h, List.map_cons, List.nodup_cons]
      refine ⟨?_, ih _ _⟩
      intro hmem
      rcases List.mem_map.mp hmem with ⟨x, hx, hxid⟩
      have hx1 := (computePhase_trace_ids f effects _ _ x hx).1
      exact hx1 (by rw [hxid]; exact List.mem_cons_self _ _)

/-- Retiring a runnable effect strictly shrinks the set of effects still
to run: the measure justifying the COMPUTE-phase fuel bound. -/
theorem filter_done_shrink (effects : List Effect) (done : List Nat) (e : Effect)
    (he : e ∈ effects) (hd : e.id ∉ done) :
    (effects.filter (fun x => !(e.id :: done).contains x.id)).length
      < (effects.filter (fun x => !done.contains x.id)).length := by
  have hfun : (fun x : Effect => !(e.id :: done).contains x.id)
      = (fun x : Effect => (!(decide (x.id = e.id))) && (!done.contains x.id)) := by
    funext x
    simp [List.contains_cons, Bool.not_or]
  rw [hfun, ← List.filter_filter]
  have hmem : e ∈ effects.filter (fun x => !done.contains x.id) :=
    List.mem_filter.mpr ⟨he, by simpa using hd⟩
  refine Nat.lt_of_le_of_ne (List.length_filter_le _ _) (fun heq => ?_)
  have hsub : List.Sublist
      (List.filter (fun x : Effect => !(decide (x.id = e.id)))
        (effects.filter (fun x => !done.contains x.id)))
      (effects.filter (fun x => !done.contains x.id)) :=
    List.filter_sublist _
  have hx := (List.mem_filter.mp (hsub.eq_of_length heq ▸ hmem)).2
  simp at hx

/-- With fuel at least the number of effects still to run, the COMPUTE
phase drains to a fixed point: every registered effect that has not run
and is matched by the final batch appears in the trace. -/
theorem computePhase_complete (fuel : Nat) (effects : List Effect)
    (batch : List (List String)) (done : List Nat)
    (hfuel : (effects.filter (fun x => !done.contains x.id)).length ≤ fuel) :
    ∀ e ∈ effects, e.id ∉ done →
      matchedBy (computePhase fuel effects batch done).1 e = true →
      e.id ∈ ((computePhase fuel effects batch done).2).map Invocation.id := by
  induction fuel generalizing batch done with
  | zero =>
    intro e he hdone _
    exfalso
    have hmem : e ∈ effects.filter (fun x => !done.contains x.id) :=
      List.mem_filter.mpr ⟨he, by simpa using hdone⟩
    have hz := Nat.le_zero.mp hfuel
    rw [List.length_eq_zero] at hz
    rw [hz] at hmem
    exact List.not_mem_nil e hmem
  | succ f ih =>
    intro e he hdone hm
    cases h : findRunnable effects batch done with
    | none =>
      simp only [computePhase, h] at hm ⊢
      have hno := List.find?_eq_none.mp h e he
      rw [Bool.and_eq_true, Bool.not_eq_true'] at hno
      exact absurd ⟨by simpa using hdone, hm⟩ hno
    | some e' =>
      simp only [computePhase, h, List.map_cons, List.mem_cons] at hm ⊢
      by_cases hid : e.id = e'.id
      · exact Or.inl hid
      · have hmem' : e' ∈ effects := List.mem_of_find?_eq_some h
        have hpred := List.find?_some h
        rw [Bool.and_eq_true, Bool.not_eq_true'] at hpred
        have hd' : e'.id ∉ done := by simpa using hpred.1
        have hfuel' :
            (effects.filter (fun x => !((e'.id :: done).contains x.id))).length ≤ f :=
          Nat.lt_succ_iff.mp
            (Nat.lt_of_lt_of_le (filter_done_shrink effects done e' hmem' hd') hfuel)
        have hdone' : e.id ∉ e'.id :: done := by
          intro hc
          rcases List.mem_cons.mp hc with hc | hc
          · exact hid hc
          · exact hdone hc
        exact Or.inr (ih _ _ hfuel' e he hdone' hm)

/-- Every invocation of one static dispatch phase has that phase's type
and carries the batch the phase was run over. -/
theorem runType_mem {t : EffectType} {effects : List Effect}
    {batch : List (List String)} :
    ∀ x ∈ runType t effects batch, x.type = t ∧ x.props = batch := by
  intro x hx
  rcases List.mem_map.mp hx with ⟨e, _, rfl⟩
  exact ⟨rfl, rfl⟩

/-- Invocation counts add over concatenated trace segments. -/
theorem countInv_append (l1 l2 : List Invocation) (t : EffectType) (a : Nat) :
    countInv (l1 ++ l2) t a = countInv l1 t a + countInv l2 t a := by
  simp [countInv, List.filter_append]

/-- A trace segment of a different effect type contributes no
invocations. -/
theorem countInv_eq_zero_of_type_ne {l : List Invocation} {t : EffectType}
    (h : ∀ x ∈ l, x.type ≠ t) (a : Nat) : countInv l t a = 0 := by
  simp only [countInv, List.length_eq_zero, List.filter_eq_nil_iff]
  intro x hx
  simp [beq_eq_false_iff_ne.mpr (h x hx)]

/-- A phase run at a different type contributes no invocations of the
looked-up type. -/
theorem countInv_runType_ne {tr t : EffectType} (hne : tr ≠ t)
    (effects : List Effect) (batch : List (List String)) (a : Nat) :
    countInv (runType tr effects batch) t a = 0 :=
  countInv_eq_zero_of_type_ne (fun x hx => (runType_mem x hx).1 ▸ hne) a

/-- Counting a phase's invocations of an effect id counts the matched
registered effects with that id. -/
theorem countInv_runType_eq (t : EffectType) (effects : List Effect)
    (batch : List (List String)) (a : Nat) :
    countInv (runType t effects batch) t a
      = List.countP (fun e => e.id == a)
          (effects.filter (fun e => matchedBy batch e)) := by
  simp only [countInv, runType, List.filter_map, List.length_map,
    List.countP_eq_length_filter]
  exact congrArg List.length (List.filter_congr fun e _ => by simp [Function.comp])

/-- On a trace of one constant effect type, the two-key invocation count
collapses to counting ids. -/
theorem countInv_eq_countP_of_type {l : List Invocation} {t : EffectType}
    (h : ∀ x ∈ l, x.type = t) (a : Nat) :
    countInv l t a = List.countP (fun x => x.id == a) l := by
  rw [countInv, ← List.countP_eq_length_filter]
  refine List.countP_congr fun x hx => ?_
  simp [h x hx]

/-- Counting an id over a list of effects with distinct ids: one when a
matched effect carries it, zero otherwise. -/
theorem countP_id_filter_nodup (effects : List Effect) (batch : List (List String))
    (e : Effect) (he : e ∈ effects) (hnd : (effects.map Effect.id).Nodup) :
    List.countP (fun x => x.id == e.id) (effects.filter (fun x => matchedBy batch x))
      = if matchedBy batch e = true then 1 else 0 := by
  induction effects with
  | nil => simp at he
  | cons f rest ih =>
    rw [List.map_cons, List.nodup_cons] at hnd
    rcases List.mem_cons.mp he with rfl | he'
    · have hzero :
          List.countP (fun x => x.id == e.id)
            (rest.filter (fun x => matchedBy batch x)) = 0 := by
        rw [List.countP_eq_zero]
        intro x hx
        have hxr : x ∈ rest := (List.mem_filter.mp hx).1
        simp only [beq_iff_eq]
        intro hxe
        exact hnd.1 (hxe ▸ List.mem_map.mpr ⟨x, hxr, rfl⟩)
      by_cases hm : matchedBy batch e = true
      · rw [List.filter_cons_of_pos (by simpa using hm),
          List.countP_cons_of_pos _ _ (by simp), hzero, if_pos hm]
      · rw [List.filter_cons_of_neg (by simpa using hm), hzero, if_neg hm]
    · have hne : (f.id == e.id) = false := by
        rw [beq_eq_false_iff_ne]
        intro hfe
        exact hnd.1 (hfe ▸ List.mem_map.mpr ⟨e, he', rfl⟩)
      by_cases hm : matchedBy batch f = true
      · rw [List.filter_cons_of_pos (by simpa using hm),
          List.countP_cons_of_neg _ _ (by simp [hne])]
        exact ih he' hnd.2
      · rw [List.filter_cons_of_neg (by simpa using hm)]
        exact ih he' hnd.2

/-- Counting an id over invocations with distinct ids: one when present,
zero otherwise. -/
theorem countP_id_invs_nodup (l : List Invocation) (a : Nat)
    (hnd : (l.map Invocation.id).Nodup) :
    List.countP (fun x => x.id == a) l
      = if a ∈ l.map Invocation.id then 1 else 0 := by
  induction l with
  | nil => simp
  | cons x rest ih =>
    rw [List.map_cons, List.nodup_cons] at hnd
    by_cases hxa : x.id = a
    · have hzero : List.countP (fun y => y.id == a) rest = 0 := by
        rw [List.countP_eq_zero]
        intro y hy
        simp only [beq_iff_eq]
        intro hya
        exact hnd.1 (by rw [hxa, ← hya]; exact List.mem_map.mpr ⟨y, hy, rfl⟩)
      rw [List.countP_cons_of_pos _ _ (by simp [hxa]), hzero,
        if_pos (by simp [List.map_cons, hxa])]
    · rw [List.countP_cons_of_neg _ _ (by simp [hxa]), ih hnd.2]
      by_cases hmem : a ∈ rest.map Invocation.id
      · rw [if_pos hmem, if_pos (by simp [List.map_cons, hmem])]
      · refine (if_neg hmem).trans (if_neg ?_).symm
        simp only [List.map_cons, List.mem_cons]
        rintro (hh | hh)
        · exact hxa hh.symm
        · exact hmem hh

/-- Flush-level invocation count for a static (non-COMPUTE) phase: only
that phase's block contributes, and it counts the matched registered
effects of the type. -/
theorem countInv_flush_static (reg : Registry) (batch : List (List String))
    (t : EffectType) (ht : t ≠ EffectType.compute) (a : Nat) :
    countInv (flush reg batch).2 t a
      = List.countP (fun e => e.id == a)
          ((typeList reg t).filter (fun e => matchedBy (flush reg batch).1 e)) := by
  have hcp := computePhase_trace_shape reg.compute.length reg.compute batch []
  have h0 : ∀ x ∈ (computePhase reg.compute.length reg.compute batch []).2,
      x.type ≠ t := fun x hx => (hcp x hx).1 ▸ Ne.symm ht
  cases t with
  | compute => exact absurd rfl ht
  | propagate =>
    simp only [flush]
    rw [countInv_append, countInv_append, countInv_append, countInv_append,
      countInv_eq_zero_of_type_ne h0 a,
      countInv_runType_ne (by decide) reg.reflect _ a,
      countInv_runType_ne (by decide) reg.observe _ a,
      countInv_runType_ne (by decide) reg.notify _ a,
      countInv_runType_eq]
    simp [typeList]
  | reflect =>
    simp only [flush]
    rw [countInv_append, countInv_append, countInv_append, countInv_append,
      countInv_eq_zero_of_type_ne h0 a,
      countInv_runType_ne (by decide) reg.propagate _ a,
      countInv_runType_ne (by decide) reg.observe _ a,
      countInv_runType_ne (by decide) reg.notify _ a,
      countInv_runType_eq]
    simp [typeList]
  | observe =>
    simp only [flush]
    rw [countInv_append, countInv_append, countInv_append, countInv_append,
      countInv_eq_zero_of_type_ne h0 a,
      countInv_runType_ne (by decide) reg.propagate _ a,
      countInv_runType_ne (by decide) reg.reflect _ a,
      countInv_runType_ne (by decide) reg.notify _ a,
      countInv_runType_eq]
    simp [typeList]
  | notify =>
    simp only [flush]
    rw [countInv_append, countInv_append, countInv_append, countInv_append,
      countInv_eq_zero_of_type_ne h0 a,
      countInv_runType_ne (by decide) reg.propagate _ a,
      countInv_runType_ne (by decide) reg.reflect _ a,
      countInv_runType_ne (by decide) reg.observe _ a,
      countInv_runType_eq]
    simp [typeList]

/-- Flush-level invocation count for the COMPUTE phase: only the
COMPUTE block contributes, and it counts trace ids. -/
theorem countInv_flush_compute (reg : Registry) (batch : List (List String))
    (a : Nat) :
    countInv (flush reg batch).2 EffectType.compute a
      = List.countP (fun x => x.id == a)
          (computePhase reg.compute.length reg.compute batch []).2 := by
  have hcp := computePhase_trace_shape reg.compute.length reg.compute batch []
  simp only [flush]
  rw [countInv_append, countInv_append, countInv_append, countInv_append,
    countInv_runType_ne (by decide) reg.propagate _ a,
    countInv_runType_ne (by decide) reg.reflect _ a,
    countInv_runType_ne (by decide) reg.observe _ a,
    countInv_runType_ne (by decide) reg.notify _ a,
    countInv_eq_countP_of_type (fun x hx => (hcp x hx).1) a]
  simp

/-- C1: in a flush of a batch, every registered effect of a type (with
the type's effect ids distinct) is invoked exactly once when some
changed property or path of the final batch matches it — no matter how
many changed inputs match it — and zero times otherwise; and every
invocation receives the batch of all properties changed so far in the
cycle (for the static phases, the full final batch). -/
theorem c1_matched_effect_fires_once (reg : Registry) (batch : List (List String))
    (t : EffectType) (e : Effect) (he : e ∈ typeList reg t)
    (hnd : ((typeList reg t).map Effect.id).Nodup) :
    countInv (flush reg batch).2 t e.id
      = (if matchedBy (flush reg batch).1 e = true then 1 else 0)
    ∧ (∀ x ∈ (flush reg batch).2,
        batch ⊆ x.props ∧ x.props ⊆ (flush reg batch).1
        ∧ (x.type ≠ EffectType.compute → x.props = (flush reg batch).1)) := by
  constructor
  · cases t with
    | compute =>
      rw [countInv_flush_compute reg batch e.id,
        countP_id_invs_nodup _ _ (computePhase_trace_nodup _ _ _ _)]
      refine if_congr ?_ rfl rfl
      constructor
      · intro hmem
        rcases List.mem_map.mp hmem with ⟨x, hx, hxid⟩
        obtain ⟨-, e', he', hid, hm⟩ :=
          computePhase_trace_ids reg.compute.length reg.compute batch [] x hx
        have hee : e' = e := List.inj_on_of_nodup_map hnd he' he (by rw [hid, hxid])
        exact hee ▸ hm
      · intro hm
        refine computePhase_complete _ _ _ _ ?_ e he (List.not_mem_nil _) hm
        exact List.length_filter_le _ _
    | propagate =>
      rw [countInv_flush_static reg batch .propagate (by decide) e.id,
        countP_id_filter_nodup _ _ e he hnd]
    | reflect =>
      rw [countInv_flush_static reg batch .reflect (by decide) e.id,
        countP_id_filter_nodup _ _ e he hnd]
    | observe =>
      rw [countInv_flush_static reg batch .observe (by decide) e.id,
        countP_id_filter_nodup _ _ e he hnd]
    | notify =>
      rw [countInv_flush_static reg batch .notify (by decide) e.id,
        countP_id_filter_nodup _ _ e he hnd]
  · intro x hx
    simp only [flush] at hx
    have hmono := computePhase_batch_mono reg.compute.length reg.compute batch []
    rcases List.mem_append.mp hx with hx | hx4
    rotate_left
    · obtain ⟨ht4, hp4⟩ := runType_mem x hx4
      exact ⟨hp4 ▸ hmono, hp4 ▸ List.Subset.refl _, fun _ => hp4⟩
    rcases List.mem_append.mp hx with hx | hx3
    rotate_left
    · obtain ⟨ht3, hp3⟩ := runType_mem x hx3
      exact ⟨hp3 ▸ hmono, hp3 ▸ List.Subset.refl _, fun _ => hp3⟩
    rcases List.mem_append.mp hx with hx | hx2
    rotate_left
    · obtain ⟨ht2, hp2⟩ := runType_mem x hx2
      exact ⟨hp2 ▸ hmono, hp2 ▸ List.Subset.refl _, fun _ => hp2⟩
    rcases List.mem_append.mp hx with hxc | hx1
    rotate_left
    · obtain ⟨ht1, hp1⟩ := runType_mem x hx1
      exact ⟨hp1 ▸ hmono, hp1 ▸ List.Subset.refl _, fun _ => hp1⟩
    · obtain ⟨ht0, hsub, hf⟩ :=
        computePhase_trace_shape reg.compute.length reg.compute batch [] x hxc
      exact ⟨hsub, hf, fun hcon => absurd ht0 hcon⟩

/-- Witness for C1 at a concrete input: two changed paths (`a` and
`a.c`) both match the observer on `a`, which still fires exactly once. -/
theorem c1_matched_effect_fires_once_witness :
    ((Effect.mk 4 (some ["a"]) [])
        ∈ typeList (Registry.mk [] [] []
            [Effect.mk 4 (some ["a"]) [], Effect.mk 5 (some ["b"]) []] [])
          EffectType.observe
     ∧ ((typeList (Registry.mk [] [] []
            [Effect.mk 4 (some ["a"]) [], Effect.mk 5 (some ["b"]) []] [])
          EffectType.observe).map Effect.id).Nodup)
    ∧ (countInv
        (flush (Registry.mk [] [] []
            [Effect.mk 4 (some ["a"]) [], Effect.mk 5 (some ["b"]) []] [])
          [["a"], ["a", "c"]]).2 EffectType.observe (Effect.mk 4 (some ["a"]) []).id
        = (if matchedBy
              (flush (Registry.mk [] [] []
                  [Effect.mk 4 (some ["a"]) [], Effect.mk 5 (some ["b"]) []] [])
                [["a"], ["a", "c"]]).1 (Effect.mk 4 (some ["a"]) []) = true
           then 1 else 0)
       ∧ (∀ x ∈ (flush (Registry.mk [] [] []
              [Effect.mk 4 (some ["a"]) [], Effect.mk 5 (some ["b"]) []] [])
            [["a"], ["a", "c"]]).2,
          [["a"], ["a", "c"]] ⊆ x.props
          ∧ x.props ⊆ (flush (Registry.mk [] [] []
                [Effect.mk 4 (some ["a"]) [], Effect.mk 5 (some ["b"]) []] [])
              [["a"], ["a", "c"]]).1
          ∧ (x.type ≠ EffectType.compute →
              x.props = (flush (Registry.mk [] [] []
                  [Effect.mk 4 (some ["a"]) [], Effect.mk 5 (some ["b"]) []] [])
                [["a"], ["a", "c"]]).1))) :=
  ⟨⟨by decide, by decide⟩,
   c1_matched_effect_fires_once
     (Registry.mk [] [] [] [Effect.mk 4 (some ["a"]) [], Effect.mk 5 (some ["b"]) []] [])
     [["a"], ["a", "c"]] EffectType.observe (Effect.mk 4 (some ["a"]) [])
     (by decide) (by decide)⟩

/-- A trace segment of one constant rank is internally ordered. -/
theorem pairwise_rank_const {l : List Invocation} {k : Nat}
    (h : ∀ x ∈ l, typeRank x.type = k) :
    l.Pairwise (fun a b => typeRank a.type ≤ typeRank b.type) := by
  induction l with
  | nil => exact List.Pairwise.nil
  | cons a t ih =>
    refine List.Pairwise.cons ?_ (ih fun x hx => h x (List.mem_cons_of_mem _ hx))
    intro b hb
    rw [h a (List.mem_cons_self _ _), h b (List.mem_cons_of_mem _ hb)]

/-- The whole flush trace is ordered by the fixed type ranks: COMPUTE,
then PROPAGATE, REFLECT, OBSERVE, NOTIFY. -/
theorem flush_pairwise_rank (reg : Registry) (batch : List (List String)) :
    (flush reg batch).2.Pairwise (fun a b => typeRank a.type ≤ typeRank b.type) := by
  have hcp := computePhase_trace_shape reg.compute.length reg.compute batch []
  have h0 : ∀ x ∈ (computePhase reg.compute.length reg.compute batch []).2,
      typeRank x.type = 0 := fun x hx => by rw [(hcp x hx).1]; rfl
  have h1 : ∀ x ∈ runType .propagate reg.propagate
      (computePhase reg.compute.length reg.compute batch []).1,
      typeRank x.type = 1 := fun x hx => by rw [(runType_mem x hx).1]; rfl
  have h2 : ∀ x ∈ runType .reflect reg.reflect
      (computePhase reg.compute.length reg.compute batch []).1,
      typeRank x.type = 2 := fun x hx => by rw [(runType_mem x hx).1]; rfl
  have h3 : ∀ x ∈ runType .observe reg.observe
      (computePhase reg.compute.length reg.compute batch []).1,
      typeRank x.type = 3 := fun x hx => by rw [(runType_mem x hx).1]; rfl
  have h4 : ∀ x ∈ runType .notify reg.notify
      (computePhase reg.compute.length reg.compute batch []).1,
      typeRank x.type = 4 := fun x hx => by rw [(runType_mem x hx).1]; rfl
  simp only [flush]
  refine List.pairwise_append.mpr ⟨List.pairwise_append.mpr
    ⟨List.pairwise_append.mpr ⟨List.pairwise_append.mpr
      ⟨pairwise_rank_const h0, pairwise_rank_const h1, ?_⟩,
      pairwise_rank_const h2, ?_⟩, pairwise_rank_const h3, ?_⟩,
    pairwise_rank_const h4, ?_⟩
  · intro x hx y hy
    rw [h0 x hx, h1 y hy]
    omega
  · intro x hx y hy
    rw [h2 y hy]
    rcases List.mem_append.mp hx with hx | hx
    · rw [h0 x hx]; omega
    · rw [h1 x hx]; omega
  · intro x hx y hy
    rw [h3 y hy]
    rcases List.mem_append.mp hx with hx | hx
    · rcases List.mem_append.mp hx with hx | hx
      · rw [h0 x hx]; omega
      · rw [h1 x hx]; omega
    · rw [h2 x hx]; omega
  · intro x hx y hy
    rw [h4 y hy]
    rcases List.mem_append.mp hx with hx | hx
    · rcases List.mem_append.mp hx with hx | hx
      · rcases List.mem_append.mp hx with hx | hx
        · rw [h0 x hx]; omega
        · rw [h1 x hx]; omega
      · rw [h2 x hx]; omega
    · rw [h3 x hx]; omega

/-- The invocations of one static phase type, in trace order, are
exactly that phase's block. -/
theorem flush_filter_type (reg : Registry) (batch : List (List String))
    {t : EffectType} (ht : t ≠ EffectType.compute) :
    (flush reg batch).2.filter (fun x => x.type == t)
      = runType t (typeList reg t) (flush reg batch).1 := by
  have hcp := computePhase_trace_shape reg.compute.length reg.compute batch []
  have hcpnil : ((computePhase reg.compute.length reg.compute batch []).2).filter
      (fun x => x.type == t) = [] := by
    rw [List.filter_eq_nil_iff]
    intro x hx
    simp [(hcp x hx).1, beq_eq_false_iff_ne.mpr (Ne.symm ht)]
  have hkeep : ∀ (es : List Effect) b,
      (runType t es b).filter (fun x => x.type == t) = runType t es b :=
    fun es b => List.filter_eq_self.mpr fun x hx => by simp [(runType_mem x hx).1]
  have hdrop : ∀ (tr : EffectType) (es : List Effect) b, tr ≠ t →
      (runType tr es b).filter (fun x => x.type == t) = [] := by
    intro tr es b hne
    rw [List.filter_eq_nil_iff]
    intro x hx
    simp [(runType_mem x hx).1, beq_eq_false_iff_ne.mpr hne]
  cases t with
  | compute => exact absurd rfl ht
  | propagate =>
    simp only [flush]
    rw [List.filter_append, List.filter_append, List.filter_append,
      List.filter_append, hcpnil, hkeep reg.propagate,
      hdrop .reflect reg.reflect _ (by decide),
      hdrop .observe reg.observe _ (by decide),
      hdrop .notify reg.notify _ (by decide)]
    simp [typeList]
  | reflect =>
    simp only [flush]
    rw [List.filter_append, List.filter_append, List.filter_append,
      List.filter_append, hcpnil, hkeep reg.reflect,
      hdrop .propagate reg.propagate _ (by decide),
      hdrop .observe reg.observe _ (by decide),
      hdrop .notify reg.notify _ (by decide)]
    simp [typeList]
  | observe =>
    simp only [flush]
    rw [List.filter_append, List.filter_append, List.filter_append,
      List.filter_append, hcpnil, hkeep reg.observe,
      hdrop .propagate reg.propagate _ (by decide),
      hdrop .reflect reg.reflect _ (by decide),
      hdrop .notify reg.notify _ (by decide)]
    simp [typeList]
  | notify =>
    simp only [flush]
    rw [List.filter_append, List.filter_append, List.filter_append,
      List.filter_append, hcpnil, hkeep reg.notify,
      hdrop .propagate reg.propagate _ (by decide),
      hdrop .reflect reg.reflect _ (by decide),
      hdrop .observe reg.observe _ (by decide)]
    simp [typeList]

/-- A static phase's invocation ids are the matched effects' ids in
registration order. -/
theorem runType_map_id (t : EffectType) (es : List Effect)
    (b : List (List String)) :
    (runType t es b).map Invocation.id
      = (es.filter (fun e => matchedBy b e)).map Effect.id := by
  simp [runType, List.map_map, Function.comp]

/-- C2, as amended: in one flush the effect types execute in the fixed
order COMPUTE, PROPAGATE, REFLECT, OBSERVE, NOTIFY (the trace is sorted
by the type ranks, even when compute effects write new properties
during the cycle); within each of the four non-COMPUTE types the
effects execute in registration order (the trace of that type is the
registration-ordered list of matched effects); and for COMPUTE,
OBSERVE, NOTIFY effects registered on the same property, a single write
invokes them as COMPUTE, then OBSERVE, then NOTIFY.  Registration order
is not asserted for the COMPUTE type itself: a mid-cycle compute write
that newly matches an earlier-registered compute effect makes that
effect run after the writer, and the counterexample below refutes the
original claim's blanket registration-order assertion at such an
input. -/
theorem c2_effect_type_order (reg : Registry) (batch : List (List String))
    (t : EffectType) (ht : t ≠ EffectType.compute) :
    (flush reg batch).2.Pairwise (fun a b => typeRank a.type ≤ typeRank b.type)
    ∧ ((flush reg batch).2.filter (fun x => x.type == t)).map Invocation.id
        = ((typeList reg t).filter
            (fun e => matchedBy (flush reg batch).1 e)).map Effect.id
    ∧ (flush (Registry.mk [Effect.mk 1 (some ["p"]) []] [] []
          [Effect.mk 2 (some ["p"]) []] [Effect.mk 3 (some ["p"]) []]) [["p"]]).2
        = [Invocation.mk .compute 1 [["p"]],
           Invocation.mk .observe 2 [["p"]],
           Invocation.mk .notify 3 [["p"]]] :=
  ⟨flush_pairwise_rank reg batch,
   by rw [flush_filter_type reg batch ht, runType_map_id],
   by rfl⟩

/-- Witness for C2 at a concrete input. -/
theorem c2_effect_type_order_witness :
    EffectType.observe ≠ EffectType.compute
    ∧ ((flush (Registry.mk [] [] [] [Effect.mk 7 (some ["z"]) []] []) [["z"]]).2.Pairwise
          (fun a b => typeRank a.type ≤ typeRank b.type)
       ∧ ((flush (Registry.mk [] [] [] [Effect.mk 7 (some ["z"]) []] [])
            [["z"]]).2.filter (fun x => x.type == EffectType.observe)).map Invocation.id
          = ((typeList (Registry.mk [] [] [] [Effect.mk 7 (some ["z"]) []] [])
              EffectType.observe).filter
              (fun e => matchedBy
                (flush (Registry.mk [] [] [] [Effect.mk 7 (some ["z"]) []] [])
                  [["z"]]).1 e)).map Effect.id
       ∧ (flush (Registry.mk [Effect.mk 1 (some ["p"]) []] [] []
            [Effect.mk 2 (some ["p"]) []] [Effect.mk 3 (some ["p"]) []]) [["p"]]).2
          = [Invocation.mk .compute 1 [["p"]],
             Invocation.mk .observe 2 [["p"]],
             Invocation.mk .notify 3 [["p"]]]) :=
  ⟨by decide,
   c2_effect_type_order (Registry.mk [] [] [] [Effect.mk 7 (some ["z"]) []] [])
     [["z"]] EffectType.observe (by decide)⟩

/-- C2 counterexample: the original claim asserts registration order
within every effect type, even when effects write new properties during
the cycle.  In the COMPUTE phase this fails: with compute effects
registered in the order id 1 (triggered by `x`), id 2 (triggered by
`p`, writing `x`), flushing the single change `p` runs effect 2 first
and only then effect 1 — the trace order is 2, 1, while both effects
are matched by the final batch and their registration order is 1, 2. -/
theorem c2_effect_type_order_counterexample :
    ((flush (Registry.mk
        [Effect.mk 1 (some ["x"]) [], Effect.mk 2 (some ["p"]) [["x"]]]
        [] [] [] []) [["p"]]).2.filter
      (fun x => x.type == EffectType.compute)).map Invocation.id
      = [2, 1]
    ∧ ((typeList (Registry.mk
          [Effect.mk 1 (some ["x"]) [], Effect.mk 2 (some ["p"]) [["x"]]]
          [] [] [] []) EffectType.compute).filter
        (fun e => matchedBy (flush (Registry.mk
            [Effect.mk 1 (some ["x"]) [], Effect.mk 2 (some ["p"]) [["x"]]]
            [] [] [] []) [["p"]]).1 e)).map Effect.id
      = [1, 2] :=
  ⟨rfl, rfl⟩

/-- C4: a changed path `P` triggers an effect registered on trigger path
`T` exactly when `P = T`, `T` is a strict ancestor of `P`, or `P` is a
strict ancestor of `T` — in addition to wildcard effects, which every
changed path triggers; in particular an effect on `a.b` fires both when
`a.b.c` changes and when `a` changes wholesale. -/
theorem c4_path_trigger_rule (T P : List String) (n m : Nat)
    (w w2 : List (List String)) :
    ((runType .observe [Effect.mk n (some T) w] [P]).length = 1
      ↔ (P = T ∨ (∃ rest, rest ≠ [] ∧ P = T ++ rest)
          ∨ (∃ rest, rest ≠ [] ∧ T = P ++ rest)))
    ∧ (runType .observe [Effect.mk m none w2] [P]).length = 1
    ∧ matchedBy [["a", "b", "c"]] (Effect.mk n (some ["a", "b"]) w) = true
    ∧ matchedBy [["a"]] (Effect.mk n (some ["a", "b"]) w) = true := by
  have hmb : matchedBy [P] (Effect.mk n (some T) w) = true
      ↔ (P = T ∨ (∃ rest, rest ≠ [] ∧ P = T ++ rest)
          ∨ (∃ rest, rest ≠ [] ∧ T = P ++ rest)) := by
    simp only [matchedBy, effectMatches, List.any_cons, List.any_nil,
      Bool.or_false, Bool.or_eq_true, beq_iff_eq, isAncestor_iff]
    exact or_assoc
  have hlen : (runType .observe [Effect.mk n (some T) w] [P]).length = 1
      ↔ matchedBy [P] (Effect.mk n (some T) w) = true := by
    by_cases hm : matchedBy [P] (Effect.mk n (some T) w) = true
    · simp [runType, hm]
    · rw [Bool.not_eq_true] at hm
      simp [runType, hm]
  refine ⟨hlen.trans hmb, ?_, by rfl, by rfl⟩
  simp [runType, matchedBy, effectMatches]

end PolymerPropertyEffects
